import Mathlib

/-!
Verification of the equation-expression engine of the Formules-Omvormen
repository: the formula normalizer and equivalence checker
(src/services/geminiService.ts), the expression-tree model and drag-drop
move mutation (src/types.ts, src/components/DropZone.tsx), and the
serializer and completeness checker (src/components/GameScreen.tsx).

The TypeScript source is embedded shallowly: strings are Lean `String`
(with the algorithms operating on the underlying `List Char`), JS objects
become inductive types, and the stateful drag-drop mutation becomes a pure
function from the prior tree to the new tree.
-/

namespace FormulesOmvormen

/-! ## Character/string primitives mirroring the JavaScript string operations -/

/-- The character class matched by the JavaScript regex `\s`
(whitespace): tab through carriage return, space, and the Unicode
space separators. -/
def isJsWS (c : Char) : Bool :=
  c = ' ' || c = '\t' || c = '\n' || c = '\r' ||
  c = '\u000b' || c = '\u000c' ||
  c = '\u00a0' || c = '\u1680' ||
  ('\u2000' ≤ c && c ≤ '\u200a') ||
  c = '\u2028' || c = '\u2029' || c = '\u202f' || c = '\u205f' ||
  c = '\u3000' || c = '\ufeff'

/-- `s.replace(/\s+/g, '')`: remove every whitespace character. -/
def stripWS (l : List Char) : List Char := l.filter (fun c => !isJsWS c)

/-- `s.trim()`: drop whitespace from both ends. -/
def trimChars (l : List Char) : List Char :=
  ((l.dropWhile isJsWS).reverse.dropWhile isJsWS).reverse

/-- String version of `trimChars` (JS `String.prototype.trim`). -/
def trimStr (s : String) : String := ⟨trimChars s.data⟩

/-- `s.split(c)` (JS `String.prototype.split` with a single-character
separator): the list of chunks between occurrences of `c`.  Always
returns at least one chunk. -/
def splitCh (c : Char) : List Char → List (List Char)
  | [] => [[]]
  | x :: xs =>
    match splitCh c xs with
    | [] => [[]]
    | h :: t => if x = c then [] :: h :: t else (x :: h) :: t

/-- Number of occurrences of a character. -/
def countCh (c : Char) (l : List Char) : Nat := (l.filter (fun x => x = c)).length

/-- Lexicographic comparison of two strings by code point, the order
used by the default comparator of JS `Array.prototype.sort`. -/
def lexLe : List Char → List Char → Bool
  | [], _ => true
  | _ :: _, [] => false
  | a :: as, b :: bs => if a = b then lexLe as bs else decide (a < b)

/-- Ordered insertion for `sortLex`. -/
def insSorted (x : List Char) : List (List Char) → List (List Char)
  | [] => [x]
  | y :: ys => if lexLe x y then x :: y :: ys else y :: insSorted x ys

/-- `arr.sort()` with the default comparator: sort lexicographically by
code point (insertion sort; ties are identical strings, so stability is
irrelevant). -/
def sortLex : List (List Char) → List (List Char)
  | [] => []
  | x :: xs => insSorted x (sortLex xs)

/-- `arr.join(c)`. -/
def joinWith (c : Char) : List (List Char) → List Char
  | [] => []
  | [x] => x
  | x :: y :: t => x ++ c :: joinWith c (y :: t)

/-- `small.startsWith-style` prefix test on character lists. -/
def prefixOf : List Char → List Char → Bool
  | [], _ => true
  | _ :: _, [] => false
  | a :: as, b :: bs => a = b && prefixOf as bs

/-- `s.includes(pat)`: substring containment. -/
def containsSub (pat : List Char) : List Char → Bool
  | [] => prefixOf pat []
  | x :: rest => prefixOf pat (x :: rest) || containsSub pat rest

/-! ## The Normalizer (geminiService.ts, `normalizeSide` / `normalizeFormula`)

`normalizeSide` is recursive through three paths (parenthesis groups,
sqrt interiors, division halves), each on a strictly shorter string, so
it is embedded with explicit recursion fuel `length + 1`; the fuel-0
branches are never reached from the top-level entry points. -/

/-- The regex character class `[^()]`. -/
def nonParen (c : Char) : Bool := c != '(' && c != ')'

/-- `s.replace(/\(([^()]+)\)/g, (_m, g) => "(" + rec(g) + ")")`: one
left-to-right scan replacing each innermost parenthesis group `(g)`
(nonempty `g` containing no parentheses) by `(` ++ `rec g` ++ `)`.
A match starts at a `(` exactly when the maximal run of non-paren
characters after it is nonempty and followed by `)` (the greedy `+`
cannot usefully backtrack).  Fuel is consumed one character at a time,
so fuel = length suffices. -/
def replParens (rec : List Char → List Char) : Nat → List Char → List Char
  | _, [] => []
  | 0, l => l
  | fuel + 1, c :: rest =>
    if c = '(' then
      let run := rest.takeWhile nonParen
      match rest.drop run.length with
      | ')' :: tail =>
        if run.isEmpty then '(' :: replParens rec fuel rest
        else '(' :: (rec run ++ ')' :: replParens rec fuel tail)
      | _ => '(' :: replParens rec fuel rest
    else c :: replParens rec fuel rest

/-- The characters of `"sqrt("`. -/
def sqrtOpen : List Char := ['s', 'q', 'r', 't', '(']

/-- `s.endsWith(")")` for a single-character suffix. -/
def endsWithChar (c : Char) (l : List Char) : Bool :=
  match l.getLast? with
  | some d => d = c
  | none => false

/-- `normalized.startsWith('sqrt(') && normalized.endsWith(')')`. -/
def isSqrtWrapped (l : List Char) : Bool :=
  prefixOf sqrtOpen l && endsWithChar ')' l

/-- The `parenCount` scan of `normalizeSide`: index of the first `/` at
parenthesis depth 0, if any.  The counter is a JS number that may go
negative, hence `Int`. -/
def depth0SlashIdx : Nat → Int → List Char → Option Nat
  | _, _, [] => none
  | i, depth, c :: rest =>
    if c = '(' then depth0SlashIdx (i + 1) (depth + 1) rest
    else if c = ')' then depth0SlashIdx (i + 1) (depth - 1) rest
    else if c = '/' ∧ depth = 0 then some i
    else depth0SlashIdx (i + 1) depth rest

/-- `normalizeSide` from geminiService.ts on character lists, with
fuel bounding the recursion depth (each recursive call of the source is
on a strictly shorter string). -/
def normSideGo : Nat → List Char → List Char
  | 0, s => s
  | fuel + 1, s =>
    let n1 := stripWS s
    let n2 := replParens (normSideGo fuel) n1.length n1
    if isSqrtWrapped n2 then
      sqrtOpen ++ normSideGo fuel ((n2.drop 5).dropLast) ++ [')']
    else
      match depth0SlashIdx 0 0 n2 with
      | some i => normSideGo fuel (n2.take i) ++ '/' :: normSideGo fuel (n2.drop (i + 1))
      | none =>
        if n2.contains '*' then joinWith '*' (sortLex (splitCh '*' n2))
        else n2

/-- `normalizeSide(side)`: normalize one side of a formula to its
canonical form. -/
def normalizeSide (s : String) : String := ⟨normSideGo (s.data.length + 1) s.data⟩

/-- `normalizeFormula(formula)`: split on `=`; with exactly one `=`,
trim the left side, normalize the right side, and rejoin; otherwise
fall back to whitespace-stripped passthrough
(`parts.length !== 2` is exactly "not of the form `[l, r]`"). -/
def normalizeFormula (formula : String) : String :=
  match splitCh '=' formula.data with
  | [l, r] => trimStr ⟨l⟩ ++ "=" ++ normalizeSide (trimStr ⟨r⟩)
  | _ => ⟨stripWS formula.data⟩

/-! ## The Problem model and the Equivalence Checker (`checkAnswer`) -/

/-- The `Problem` interface of types.ts. -/
structure Problem where
  originalFormula : String
  targetVariable : String
  correctAnswer : String
  symbols : List String
deriving DecidableEq

/-- `checkAnswer(problem, userAnswer).isCorrect`: both formulas are
normalized and compared for exact string equality.  The source wraps
this in a try/catch and returns fixed explanation strings; the local
check is pure and total, so only the verdict is modelled. -/
def checkAnswer (problem : Problem) (userAnswer : String) : Bool :=
  normalizeFormula userAnswer == normalizeFormula problem.correctAnswer

/-! ## The Expression Tree Model (types.ts) -/

mutual
/-- `DraggableItem` of types.ts: `DroppedSymbol | SqrtNode | FractionNode`,
each carrying its `id`. -/
inductive Item : Type where
  | symbol (id : String) (content : String) : Item
  | sqrt (id : String) (content : Side) : Item
  | fraction (id : String) (numerator : Side) (denominator : Side) : Item

/-- `EquationSide` of types.ts: an object holding an `items` array. -/
inductive Side : Type where
  | mk (items : List Item) : Side
end

/-- The `items` field of an `EquationSide`. -/
def Side.items : Side → List Item
  | Side.mk l => l

/-! ## The Serializer (GameScreen.tsx, `serializeSide`) -/

/-- JS `s || ' '`: the single-space placeholder for an empty
serialization (the empty string is the only falsy string). -/
def orSpace (s : String) : String := if s = "" then " " else s

mutual
/-- The arrow function mapped over the items inside `serializeItems`:
serialization of one item. -/
def serializeItem : Item → String
  | Item.symbol _ content => if content = "__square__" then "^2" else content
  | Item.sqrt _ c => "sqrt(" ++ orSpace (serializeSide c) ++ ")"
  | Item.fraction _ n d =>
    (if n.items.length > 1 then "( " ++ serializeSide n ++ " )" else orSpace (serializeSide n))
    ++ " / " ++
    (if d.items.length > 1 then "( " ++ serializeSide d ++ " )" else orSpace (serializeSide d))

/-- `serializeItems(items)`: map `serializeItem` and `.join(' ')`. -/
def serializeItems : List Item → String
  | [] => ""
  | [it] => serializeItem it
  | it :: rest => serializeItem it ++ " " ++ serializeItems rest

/-- `serializeSide(side)`: serialize the items and `.trim()`. -/
def serializeSide : Side → String
  | Side.mk items => trimStr (serializeItems items)
end

/-! ## The Completeness Checker (GameScreen.tsx, `isSideSubmittable`) -/

mutual
/-- `isSideSubmittable(side)`: empty sides are not submittable,
otherwise the `checkItems` loop decides. -/
def isSideSubmittable : Side → Bool
  | Side.mk items => if items.isEmpty then false else checkItems items

/-- The `checkItems` loop: returns false at the first `Sqrt` with an
empty or non-submittable radicand or `Fraction` with an empty or
non-submittable numerator or denominator; symbols impose nothing. -/
def checkItems : List Item → Bool
  | [] => true
  | it :: rest =>
    (match it with
     | Item.symbol _ _ => true
     | Item.sqrt _ c => !c.items.isEmpty && isSideSubmittable c
     | Item.fraction _ n d =>
       !(n.items.isEmpty || d.items.isEmpty)
       && isSideSubmittable n && isSideSubmittable d)
    && checkItems rest
end

/-! ## Path Addressing & the Move Mutation (DropZone.tsx)

Paths are the `(string | number)[]` arrays of the source: a string step
reads a named property, a numeric step indexes an array.  `getNested`
reduces over the path with `acc && acc[part]`, so resolution runs over
the untyped JS object graph; `JV` is the value universe of that graph
restricted to what is reachable from an `EquationSide`. -/

/-- One step of a `(string | number)[]` path. -/
inductive Key : Type where
  | field (s : String) : Key
  | idx (n : Nat) : Key

/-- A JS value reachable from an `EquationSide` by property access: the
side object, its items array, an item object, a string (the `id`,
`type` or symbol `content` of an item, or a character read out of a string by a
numeric step), or `undefined`. -/
inductive JV : Type where
  | vside (s : Side) : JV
  | varr (l : List Item) : JV
  | vitem (it : Item) : JV
  | vstr (s : String) : JV
  | undef : JV

/-- `acc[part]` for one path step.  Plain-object property reads that
miss (and numeric steps on objects) give `undefined`; numeric steps on
strings read one character, as in JS. -/
def jvAccess : JV → Key → JV
  | JV.vside (Side.mk l), Key.field "items" => JV.varr l
  | JV.vside _, _ => JV.undef
  | JV.varr l, Key.idx n =>
    match l.get? n with
    | some it => JV.vitem it
    | none => JV.undef
  | JV.varr _, Key.field _ => JV.undef
  | JV.vitem (Item.symbol _ _), Key.field "type" => JV.vstr "symbol"
  | JV.vitem (Item.symbol id _), Key.field "id" => JV.vstr id
  | JV.vitem (Item.symbol _ content), Key.field "content" => JV.vstr content
  | JV.vitem (Item.sqrt _ _), Key.field "type" => JV.vstr "sqrt"
  | JV.vitem (Item.sqrt id _), Key.field "id" => JV.vstr id
  | JV.vitem (Item.sqrt _ c), Key.field "content" => JV.vside c
  | JV.vitem (Item.fraction _ _ _), Key.field "type" => JV.vstr "fraction"
  | JV.vitem (Item.fraction id _ _), Key.field "id" => JV.vstr id
  | JV.vitem (Item.fraction _ n _), Key.field "numerator" => JV.vside n
  | JV.vitem (Item.fraction _ _ d), Key.field "denominator" => JV.vside d
  | JV.vitem _, _ => JV.undef
  | JV.vstr s, Key.idx n =>
    match s.data.get? n with
    | some c => JV.vstr ⟨[c]⟩
    | none => JV.undef
  | JV.vstr _, Key.field _ => JV.undef
  | JV.undef, _ => JV.undef

/-- JS falsiness of a `JV`: `undefined` and the empty string. -/
def jvFalsy : JV → Bool
  | JV.undef => true
  | JV.vstr "" => true
  | _ => false

/-- One reduce step of `getNested`: `acc && acc[part]`. -/
def jvStep (acc : JV) (k : Key) : JV :=
  if jvFalsy acc then acc else jvAccess acc k

/-- `getNested(obj, path)` of DropZone.tsx. -/
def getNested (root : Side) (path : List Key) : JV :=
  path.foldl jvStep (JV.vside root)

/-- `Array.isArray`. -/
def isArr : JV → Bool
  | JV.varr _ => true
  | _ => false

/-- `path[path.length - 1] as number`: the `as` cast does not convert,
and `Array.prototype.splice` coerces a non-numeric start (`NaN`) to 0,
so a terminal string step behaves as its numeric value if it is one and
as index 0 otherwise.  (This is only read after the container path
resolved to an array, which forces the path to be nonempty.) -/
def keyNum : Key → Nat
  | Key.idx n => n
  | Key.field s => (s.toNat?).getD 0

/-- The terminal index of a source path. -/
def lastIdx (sp : List Key) : Nat := keyNum (sp.getLastD (Key.idx 0))

/-- `arr.splice(n, 0, x)`: insert at `n`, clamped to the array length. -/
def insertAt (n : Nat) (x : Item) (l : List Item) : List Item :=
  l.take n ++ x :: l.drop n

mutual
/-- Functional write-back of an in-place mutation of the items array
addressed by `path`: rebuilds the tree with `f` applied to that array.
Applied only after `getNested` resolved the same path to an array, it
is the draft mutation of the immer recipe. -/
def modifySide : Side → List Key → (List Item → List Item) → Side
  | s, [], _ => s
  | Side.mk l, Key.field "items" :: rest, f => Side.mk (modifyArr l rest f)
  | s, _ :: _, _ => s

def modifyArr : List Item → List Key → (List Item → List Item) → List Item
  | l, [], f => f l
  | l, Key.idx n :: rest, f =>
    match l.get? n with
    | some it => l.set n (modifyItem it rest f)
    | none => l
  | l, _ :: _, _ => l

def modifyItem : Item → List Key → (List Item → List Item) → Item
  | Item.sqrt id c, Key.field "content" :: rest, f => Item.sqrt id (modifySide c rest f)
  | Item.fraction id n d, Key.field "numerator" :: rest, f =>
    Item.fraction id (modifySide n rest f) d
  | Item.fraction id n d, Key.field "denominator" :: rest, f =>
    Item.fraction id n (modifySide d rest f)
  | it, _, _ => it
end

/-- The reordering branch of `RecursiveDropZone.handleDrop` (DropZone.tsx
lines 182-199), as a pure function from the prior root side to the new
root side: resolve the source container (`sourcePath.slice(0, -1)`),
require it to be an array, `splice` out the item at the terminal index,
then resolve the drop target `path` against the *mutated* draft, require
an array, and `splice` the removed item in at `newIndex`.  Each early
`return` of the recipe keeps whatever the draft holds at that point. -/
def handleDropReorder (root : Side) (sourcePath path : List Key) (newIndex : Nat) : Side :=
  match getNested root sourcePath.dropLast with
  | JV.varr src =>
    let sourceIndex := lastIdx sourcePath
    match src.get? sourceIndex with
    | none => root
    | some removedItem =>
      let root2 := modifySide root sourcePath.dropLast (fun l => l.eraseIdx sourceIndex)
      match getNested root2 path with
      | JV.varr _ => modifySide root2 path (fun l => insertAt newIndex removedItem l)
      | _ => root2
  | _ => root

/-! ## The Problem supply (`getPhysicsProblem`, geminiService.ts) -/

/-- One entry of `PREDEFINED_FORMULAS`. -/
structure FormulaData where
  formula : String
  /-- The `variables` field (a reserved word in Lean). -/
  vars : List String

def PREDEFINED_FORMULAS : List FormulaData := [
  ⟨"θ = s / r", ["θ", "s", "r"]⟩,
  ⟨"a = r * α", ["a", "r", "α"]⟩,
  ⟨"Fz = m * g", ["Fz", "m", "g"]⟩,
  ⟨"Epot = m*g*h", ["Epot", "m", "g", "h"]⟩,
  ⟨"p = F / A", ["p", "F", "A"]⟩,
  ⟨"phydro = ρ*g*h", ["phydro", "ρ", "g", "h"]⟩,
  ⟨"R = U / I", ["R", "U", "I"]⟩,
  ⟨"Q = m*c*ΔT", ["Q", "m", "c", "ΔT"]⟩,
  ⟨"E = m * c^2", ["E", "m", "c"]⟩,
  ⟨"v = Δx / Δt", ["v", "Δx", "Δt"]⟩,
  ⟨"ρ = m / v", ["ρ", "m", "v"]⟩]

/-- `PRECOMPUTED_ANSWERS`, as an association list (JS object property
lookup on its fixed string keys). -/
def PRECOMPUTED_ANSWERS : List (String × List (String × String)) := [
  ("θ = s / r", [("s", "s = θ * r"), ("r", "r = s / θ")]),
  ("a = r * α", [("r", "r = a / α"), ("α", "α = a / r")]),
  ("Fz = m * g", [("m", "m = Fz / g"), ("g", "g = Fz / m")]),
  ("Epot = m*g*h", [("m", "m = Epot / (g * h)"), ("g", "g = Epot / (m * h)"),
                    ("h", "h = Epot / (m * g)")]),
  ("p = F / A", [("F", "F = p * A"), ("A", "A = F / p")]),
  ("phydro = ρ*g*h", [("ρ", "ρ = phydro / (g * h)"), ("g", "g = phydro / (ρ * h)"),
                      ("h", "h = phydro / (ρ * g)")]),
  ("R = U / I", [("U", "U = R * I"), ("I", "I = U / R")]),
  ("Q = m*c*ΔT", [("m", "m = Q / (c * ΔT)"), ("c", "c = Q / (m * ΔT)"),
                  ("ΔT", "ΔT = Q / (m * c)")]),
  ("E = m * c^2", [("m", "m = E / c^2"), ("c", "c = sqrt(E / m)")]),
  ("v = Δx / Δt", [("Δx", "Δx = v * Δt"), ("Δt", "Δt = Δx / v")]),
  ("ρ = m / v", [("m", "m = ρ * v"), ("v", "v = m / ρ")])]

/-- `PRECOMPUTED_ANSWERS[formula]`. -/
def lookupAnswers (formula : String) : Option (List (String × String)) :=
  PRECOMPUTED_ANSWERS.lookup formula

/-- `PRECOMPUTED_ANSWERS[formula]?.[targetVariable]`.  The source then
throws (reaching the fallback) on `!correctAnswer`, which a `none`
result models; that check would also catch an empty-string answer, but
no precomputed answer is empty, so the `Option` model coincides. -/
def lookupAnswer (formula target : String) : Option String :=
  match lookupAnswers formula with
  | none => none
  | some row => row.lookup target

def standardSymbols : List String :=
  ["+", "-", "*", "(", ")", "__square__", "__sqrt__", "__fraction__"]

/-- The fallback problem returned by the catch handler. -/
def fallbackProblem : Problem :=
  { originalFormula := "F = m * a", targetVariable := "a", correctAnswer := "a = F / m",
    symbols := ["F", "m", "a", "*", "/", "+", "-", "(", ")",
                "__square__", "__sqrt__", "__fraction__"] }

/-- `[...new Set(l)]`: deduplicate keeping the first occurrence order. -/
def dedupKeepFirst : List String → List String
  | [] => []
  | x :: xs => x :: (dedupKeepFirst xs).filter (fun y => y != x)

/-- `s.includes(pat)` on strings. -/
def containsSubStr (pat s : String) : Bool := containsSub pat.data s.data

/-- `formula.split('=')[0]`. -/
def headSplitEq (s : String) : String := ⟨(splitCh '=' s.data).headD []⟩

/-- `formula.split('=')[0].trim()`: the solved (left-hand-side) variable. -/
def solvedVarOf (s : String) : String := trimStr (headSplitEq s)

/-- `variables.filter(v => v !== solvedVariable)`. -/
def targetsOf (fd : FormulaData) : List String :=
  fd.vars.filter (fun v => v != solvedVarOf fd.formula)

/-- `hasSquare`: the formula or any of its precomputed answers contains
`^2`. -/
def hasSquareOf (fd : FormulaData) : Bool :=
  containsSubStr "^2" fd.formula ||
  ((lookupAnswers fd.formula).getD []).any (fun p => containsSubStr "^2" p.2)

/-- The `combinedSymbols` computation. -/
def combinedSymbolsOf (fd : FormulaData) : List String :=
  let cs1 := dedupKeepFirst (fd.vars ++ standardSymbols)
  let cs2 := if hasSquareOf fd && !cs1.contains "__square__" then cs1 ++ ["__square__"] else cs1
  cs2.filter (fun s => s != "^2")

/-- `getPhysicsProblem()`, with the two `Math.random` draws made
explicit as indices `i` (formula) and `j` (target).  Every failure
inside the `try` (index out of range, no rearrangement target, no
precomputed answer) lands in the catch handler, which returns
`fallbackProblem`. -/
def getPhysicsProblem (i j : Nat) : Problem :=
  match PREDEFINED_FORMULAS.get? i with
  | none => fallbackProblem
  | some fd =>
    match (targetsOf fd).get? j with
    | none => fallbackProblem
    | some targetVariable =>
      match lookupAnswer fd.formula targetVariable with
      | none => fallbackProblem
      | some correctAnswer =>
        { originalFormula := fd.formula
          targetVariable := targetVariable
          correctAnswer := correctAnswer
          symbols := combinedSymbolsOf fd }

/-- Every formula string of the problem bank: the predefined formulas,
every precomputed answer, and the two formulas of the fallback problem. -/
def bankFormulas : List String :=
  PREDEFINED_FORMULAS.map (fun fd => fd.formula)
  ++ (PRECOMPUTED_ANSWERS.map (fun row => row.2.map (fun p => p.2))).flatten
  ++ [fallbackProblem.originalFormula, fallbackProblem.correctAnswer]

/-! ## Spec-side completeness predicate (for the C6 refinement) -/

mutual
/-- Modelled from the spec wording of the completeness checker (§4.4):
a container is complete iff it is non-empty and every `Sqrt` item in it
has a non-empty, complete radicand, and every `Fraction` item has both a
non-empty, complete numerator and a non-empty, complete denominator. -/
def specComplete : Side → Bool
  | Side.mk items => !items.isEmpty && specAllOK items

/-- Every item of a list satisfies `specItemOK`. -/
def specAllOK : List Item → Bool
  | [] => true
  | it :: rest => specItemOK it && specAllOK rest

/-- The per-item condition of the spec: `Leaf` items impose no constraint. -/
def specItemOK : Item → Bool
  | Item.symbol _ _ => true
  | Item.sqrt _ c => !c.items.isEmpty && specComplete c
  | Item.fraction _ n d =>
    (!n.items.isEmpty && specComplete n) && (!d.items.isEmpty && specComplete d)
end

/-! ## C7: fraction serialization -/

/-- Modelled from the spec wording of fraction serialization (§4.3), as
amended: a fraction side is wrapped in parentheses iff its item count
exceeds 1; otherwise its serialization is emitted unwrapped unless that
serialization is the empty string (an empty side, or a single item that
serializes to the empty string), in which case the single-space
placeholder is emitted. -/
def fracSideEmit (s : Side) : String :=
  if s.items.length > 1 then "( " ++ serializeSide s ++ " )"
  else if serializeSide s = "" then " " else serializeSide s

/-! ## C10: the `getPhysicsProblem` invariant -/

/-- Length of the possible-targets list drawn from, per formula index
(0 when the index is out of range). -/
def targetsLenOf (i : Nat) : Nat :=
  match PREDEFINED_FORMULAS.get? i with
  | none => 0
  | some fd => (targetsOf fd).length

/-! ## Sanity checks and helper lemmas -/

example : normalizeSide "g*h*m" = "g*h*m" := by decide

example : normalizeSide "m*g*h" = "g*h*m" := by decide

example : normalizeFormula "c = sqrt(E / m)" = "c=sqrt(E/m)" := by decide

example : normalizeFormula "c = sqrt(E/m )" = "c=sqrt(E/m)" := by decide

example : normalizeSide "(b*a)*(d*c)" = "(a*(c*b)*d)" := by decide

example : normalizeSide "(a*(c*b)*d)" = "(a*(b*c)*d)" := by decide

example : serializeSide (Side.mk [Item.symbol "1" "m"]) = "m" := by decide

example : serializeItem (Item.fraction "f" (Side.mk [Item.symbol "1" "Fz"]) (Side.mk []))
    = "Fz /  " := by decide

example : isSideSubmittable (Side.mk [Item.fraction "f" (Side.mk [Item.symbol "1" "Fz"]) (Side.mk [])])
    = false := by decide

example :
    handleDropReorder (Side.mk [Item.symbol "a" "A", Item.symbol "b" "B", Item.symbol "c" "C"])
      [Key.field "items", Key.idx 0] [Key.field "items"] 2
    = Side.mk [Item.symbol "b" "B", Item.symbol "c" "C", Item.symbol "a" "A"] := rfl

example :
    handleDropReorder (Side.mk [Item.symbol "id1" "x"])
      [Key.field "items", Key.idx 0]
      [Key.field "items", Key.idx 0, Key.field "content", Key.field "items"] 0
    = Side.mk [] := rfl

example : getPhysicsProblem 2 0 =
    { originalFormula := "Fz = m * g", targetVariable := "m", correctAnswer := "m = Fz / g",
      symbols := ["Fz", "m", "g", "+", "-", "*", "(", ")",
                  "__square__", "__sqrt__", "__fraction__"] } := by decide

theorem splitCh_length (c : Char) (l : List Char) :
    (splitCh c l).length = countCh c l + 1 := by
  induction l with
  | nil => simp [splitCh, countCh]
  | cons x xs ih =>
    simp only [splitCh, countCh, List.filter] at *
    cases h : splitCh c xs with
    | nil => simp [h] at ih
    | cons hd tl =>
      by_cases hx : x = c
      · simp [hx, h] at ih ⊢; omega
      · have : (x == c) = false := by simp [hx]
        simp [hx, h, this] at ih ⊢; omega

/-! ## Lemmas towards idempotence of the Normalizer on paren-free text -/

theorem dropWhile_dropWhile (p : Char → Bool) (l : List Char) :
    List.dropWhile p (List.dropWhile p l) = List.dropWhile p l := by
  induction l with
  | nil => rfl
  | cons a t ih =>
    by_cases h : p a
    · simp [List.dropWhile_cons, h, ih]
    · simp [List.dropWhile_cons, h]

theorem dropWhile_eq_drop (p : Char → Bool) (l : List Char) :
    ∃ k, List.dropWhile p l = l.drop k := by
  induction l with
  | nil => exact ⟨0, rfl⟩
  | cons a t ih =>
    by_cases h : p a
    · obtain ⟨k, hk⟩ := ih
      exact ⟨k + 1, by simp [List.dropWhile_cons, h, hk]⟩
    · exact ⟨0, by simp [List.dropWhile_cons, h]⟩

theorem head_dropWhile_not (p : Char → Bool) (l : List Char) (a : Char)
    (h : (List.dropWhile p l).head? = some a) : p a = false := by
  induction l with
  | nil => simp [List.dropWhile] at h
  | cons b t ih =>
    by_cases hb : p b
    · rw [List.dropWhile_cons, if_pos hb] at h
      exact ih h
    · rw [List.dropWhile_cons, if_neg hb] at h
      simp at h
      subst h
      simpa using hb

theorem dropWhile_of_head_not (p : Char → Bool) (l : List Char)
    (h : ∀ a, l.head? = some a → p a = false) : List.dropWhile p l = l := by
  cases l with
  | nil => rfl
  | cons a t =>
    have := h a rfl
    simp [List.dropWhile_cons, this]

theorem dropWhile_all_not (p : Char → Bool) (l : List Char)
    (h : ∀ c ∈ l, p c = false) : List.dropWhile p l = l := by
  cases l with
  | nil => rfl
  | cons a t =>
    have := h a (List.mem_cons_self a t)
    simp [List.dropWhile_cons, this]

theorem trimChars_head (l : List Char) (a : Char)
    (h : (trimChars l).head? = some a) : isJsWS a = false := by
  unfold trimChars at h
  set u := l.dropWhile isJsWS with hu
  obtain ⟨k, hk⟩ := dropWhile_eq_drop isJsWS u.reverse
  rw [hk] at h
  have h2 : a ∈ (u.reverse.drop k).reverse.head? := by rw [h]; rfl
  have h3 : a ∈ ((u.reverse.drop k).reverse ++ (u.reverse.take k).reverse).head? :=
    List.mem_head?_append_of_mem_head? h2
  have h4 : (u.reverse.drop k).reverse ++ (u.reverse.take k).reverse
      = (u.reverse.take k ++ u.reverse.drop k).reverse := by
    rw [List.reverse_append]
  rw [h4, List.take_append_drop, List.reverse_reverse] at h3
  exact head_dropWhile_not isJsWS l a h3

theorem trimChars_trimChars (l : List Char) : trimChars (trimChars l) = trimChars l := by
  have h1 : List.dropWhile isJsWS (trimChars l) = trimChars l :=
    dropWhile_of_head_not _ _ (fun a ha => trimChars_head l a ha)
  show ((List.dropWhile isJsWS (trimChars l)).reverse.dropWhile isJsWS).reverse = trimChars l
  rw [h1]
  show ((((l.dropWhile isJsWS).reverse.dropWhile isJsWS).reverse).reverse.dropWhile
    isJsWS).reverse = _
  rw [List.reverse_reverse, dropWhile_dropWhile]
  rfl

theorem mem_trimChars (l : List Char) (c : Char) (h : c ∈ trimChars l) : c ∈ l := by
  unfold trimChars at h
  rw [List.mem_reverse] at h
  obtain ⟨k1, hk1⟩ := dropWhile_eq_drop isJsWS (l.dropWhile isJsWS).reverse
  rw [hk1] at h
  have h2 := List.drop_subset k1 _ h
  rw [List.mem_reverse] at h2
  obtain ⟨k2, hk2⟩ := dropWhile_eq_drop isJsWS l
  rw [hk2] at h2
  exact List.drop_subset k2 l h2

theorem trimChars_all_not (l : List Char) (h : ∀ c ∈ l, isJsWS c = false) :
    trimChars l = l := by
  unfold trimChars
  rw [dropWhile_all_not _ _ h]
  rw [dropWhile_all_not _ _ (fun c hc => h c (List.mem_reverse.mp hc))]
  exact List.reverse_reverse l

theorem mem_stripWS (l : List Char) (c : Char) (h : c ∈ stripWS l) : c ∈ l :=
  List.mem_of_mem_filter h

theorem stripWS_no_ws (l : List Char) (c : Char) (h : c ∈ stripWS l) :
    isJsWS c = false := by
  have := List.of_mem_filter h
  simpa using this

theorem stripWS_eq_self (l : List Char) (h : ∀ c ∈ l, isJsWS c = false) :
    stripWS l = l := by
  rw [stripWS, List.filter_eq_self]
  intro a ha
  simp [h a ha]

theorem countCh_pos (a : Char) (l : List Char) (h : a ∈ l) : 0 < countCh a l := by
  rw [countCh]
  apply List.length_pos.mpr
  intro he
  have := List.filter_eq_nil_iff.mp he a h
  simp at this

theorem splitCh_ne_nil (c : Char) (l : List Char) : splitCh c l ≠ [] := by
  cases l with
  | nil => simp [splitCh]
  | cons x xs =>
    simp only [splitCh]
    cases h : splitCh c xs with
    | nil => simp
    | cons hd tl => by_cases hx : x = c <;> simp [hx]

theorem splitCh_chunk_free (c : Char) (l : List Char) :
    ∀ p ∈ splitCh c l, c ∉ p := by
  induction l with
  | nil =>
    intro p hp
    simp [splitCh] at hp
    simp [hp]
  | cons x xs ih =>
    intro p hp
    cases h : splitCh c xs with
    | nil => exact absurd h (splitCh_ne_nil c xs)
    | cons hd tl =>
      by_cases hx : x = c
      · simp only [splitCh, h, if_pos hx] at hp
        rcases List.mem_cons.mp hp with h1 | h1
        · simp [h1]
        · exact ih p (h ▸ h1)
      · simp only [splitCh, h, if_neg hx] at hp
        rcases List.mem_cons.mp hp with h1 | h1
        · subst h1
          intro hc
          rcases List.mem_cons.mp hc with h2 | h2
          · exact hx h2.symm
          · exact ih hd (h ▸ List.mem_cons_self hd tl) h2
        · exact ih p (h ▸ List.mem_cons_of_mem hd h1)

theorem joinWith_splitCh (c : Char) (l : List Char) :
    joinWith c (splitCh c l) = l := by
  induction l with
  | nil => rfl
  | cons x xs ih =>
    cases h : splitCh c xs with
    | nil => exact absurd h (splitCh_ne_nil c xs)
    | cons hd tl =>
      rw [h] at ih
      by_cases hx : x = c
      · simp only [splitCh, h, if_pos hx]
        show [] ++ c :: joinWith c (hd :: tl) = x :: xs
        rw [ih, hx]
        rfl
      · simp only [splitCh, h, if_neg hx]
        cases tl with
        | nil =>
          show x :: hd = x :: xs
          rw [show joinWith c [hd] = hd from rfl] at ih
          rw [ih]
        | cons t0 ts =>
          show (x :: hd) ++ c :: joinWith c (t0 :: ts) = x :: xs
          rw [show joinWith c (hd :: t0 :: ts) = hd ++ c :: joinWith c (t0 :: ts) from rfl] at ih
          rw [← ih]
          rfl

theorem splitCh_of_not_mem (c : Char) (l : List Char) (h : c ∉ l) :
    splitCh c l = [l] := by
  induction l with
  | nil => rfl
  | cons x xs ih =>
    have hx : ¬ x = c := fun e => h (by rw [e]; exact List.mem_cons_self c xs)
    simp only [splitCh, ih (fun hm => h (List.mem_cons_of_mem x hm)), if_neg hx]

theorem splitCh_append (c : Char) (A B : List Char) (h : c ∉ A) :
    splitCh c (A ++ c :: B) = A :: splitCh c B := by
  induction A with
  | nil =>
    show splitCh c (c :: B) = [] :: splitCh c B
    cases hb : splitCh c B with
    | nil => exact absurd hb (splitCh_ne_nil c B)
    | cons hd tl => simp [splitCh, hb]
  | cons a A2 ih =>
    have ha : ¬ a = c := fun e => h (by rw [e]; exact List.mem_cons_self c A2)
    show splitCh c (a :: (A2 ++ c :: B)) = (a :: A2) :: splitCh c B
    have ih2 := ih (fun hm => h (List.mem_cons_of_mem a hm))
    cases hb : splitCh c B with
    | nil => exact absurd hb (splitCh_ne_nil c B)
    | cons hd tl =>
      rw [hb] at ih2
      simp only [splitCh, ih2, if_neg ha]

theorem mem_joinWith (c : Char) (parts : List (List Char)) (x : Char)
    (h : x ∈ joinWith c parts) : x = c ∨ ∃ p ∈ parts, x ∈ p := by
  induction parts with
  | nil => simp [joinWith] at h
  | cons p t ih =>
    cases t with
    | nil =>
      right
      exact ⟨p, List.mem_cons_self p [], h⟩
    | cons q ts =>
      rw [show joinWith c (p :: q :: ts) = p ++ c :: joinWith c (q :: ts) from rfl] at h
      rcases List.mem_append.mp h with h1 | h1
      · exact Or.inr ⟨p, List.mem_cons_self p _, h1⟩
      · rcases List.mem_cons.mp h1 with h2 | h2
        · exact Or.inl h2
        · rcases ih h2 with h3 | ⟨p2, hp2, hx⟩
          · exact Or.inl h3
          · exact Or.inr ⟨p2, List.mem_cons_of_mem p hp2, hx⟩

theorem joinWith_mem_sep (c : Char) (p q : List Char) (ts : List (List Char)) :
    c ∈ joinWith c (p :: q :: ts) := by
  rw [show joinWith c (p :: q :: ts) = p ++ c :: joinWith c (q :: ts) from rfl]
  exact List.mem_append.mpr (Or.inr (List.mem_cons_self c _))

theorem splitCh_joinWith (c : Char) (parts : List (List Char))
    (hne : parts ≠ []) (hfree : ∀ p ∈ parts, c ∉ p) :
    splitCh c (joinWith c parts) = parts := by
  induction parts with
  | nil => exact absurd rfl hne
  | cons p t ih =>
    cases t with
    | nil =>
      show splitCh c (joinWith c [p]) = [p]
      rw [show joinWith c [p] = p from rfl]
      exact splitCh_of_not_mem c p (hfree p (List.mem_cons_self p []))
    | cons q ts =>
      rw [show joinWith c (p :: q :: ts) = p ++ c :: joinWith c (q :: ts) from rfl]
      rw [splitCh_append c p _ (hfree p (List.mem_cons_self p _))]
      rw [ih (by simp) (fun r hr => hfree r (List.mem_cons_of_mem p hr))]

theorem lexLe_total (a b : List Char) : lexLe a b = true ∨ lexLe b a = true := by
  induction a generalizing b with
  | nil => exact Or.inl rfl
  | cons x xs ih =>
    cases b with
    | nil => exact Or.inr rfl
    | cons y ys =>
      by_cases hxy : x = y
      · subst hxy
        simp only [lexLe, if_pos rfl]
        exact ih ys
      · rcases Ne.lt_or_lt hxy with h | h
        · exact Or.inl (by simp [lexLe, hxy, h])
        · refine Or.inr (by simp [lexLe, Ne.symm hxy, h])

theorem lexLe_trans (a b c : List Char) (h1 : lexLe a b = true)
    (h2 : lexLe b c = true) : lexLe a c = true := by
  induction a generalizing b c with
  | nil => rfl
  | cons x xs ih =>
    cases b with
    | nil => simp [lexLe] at h1
    | cons y ys =>
      cases c with
      | nil => simp [lexLe] at h2
      | cons z zs =>
        by_cases hxy : x = y <;> by_cases hyz : y = z
        · subst hxy; subst hyz
          simp only [lexLe, if_pos rfl] at h1 h2 ⊢
          exact ih ys zs h1 h2
        · subst hxy
          simp only [lexLe, if_pos rfl] at h1
          simp only [lexLe, if_neg hyz] at h2
          simp [lexLe, hyz, h2]
        · subst hyz
          simp only [lexLe, if_neg hxy] at h1
          simp [lexLe, hxy, h1]
        · simp only [lexLe, if_neg hxy] at h1
          simp only [lexLe, if_neg hyz] at h2
          rw [decide_eq_true_eq] at h1 h2
          have hxz : x < z := lt_trans h1 h2
          simp [lexLe, ne_of_lt hxz, hxz]

theorem mem_insSorted (x : List Char) (ys : List (List Char)) (p : List Char) :
    p ∈ insSorted x ys ↔ p = x ∨ p ∈ ys := by
  induction ys with
  | nil => simp [insSorted]
  | cons y t ih =>
    by_cases h : lexLe x y
    · simp only [insSorted, if_pos h]
      constructor
      · intro hm
        rcases List.mem_cons.mp hm with h1 | h1
        · exact Or.inl h1
        · exact Or.inr h1
      · intro hm
        rcases hm with h1 | h1
        · exact List.mem_cons.mpr (Or.inl h1)
        · exact List.mem_cons.mpr (Or.inr h1)
    · simp only [insSorted, if_neg h]
      constructor
      · intro hm
        rcases List.mem_cons.mp hm with h1 | h1
        · exact Or.inr (List.mem_cons.mpr (Or.inl h1))
        · rcases ih.mp h1 with h2 | h2
          · exact Or.inl h2
          · exact Or.inr (List.mem_cons.mpr (Or.inr h2))
      · intro hm
        rcases hm with h1 | h1
        · exact List.mem_cons.mpr (Or.inr (ih.mpr (Or.inl h1)))
        · rcases List.mem_cons.mp h1 with h2 | h2
          · exact List.mem_cons.mpr (Or.inl h2)
          · exact List.mem_cons.mpr (Or.inr (ih.mpr (Or.inr h2)))

theorem mem_sortLex (xs : List (List Char)) (p : List Char) :
    p ∈ sortLex xs ↔ p ∈ xs := by
  induction xs with
  | nil => simp [sortLex]
  | cons x t ih =>
    simp only [sortLex, mem_insSorted, ih, List.mem_cons]

theorem length_insSorted (x : List Char) (ys : List (List Char)) :
    (insSorted x ys).length = ys.length + 1 := by
  induction ys with
  | nil => rfl
  | cons y t ih =>
    by_cases h : lexLe x y
    · simp [insSorted, if_pos h]
    · simp [insSorted, if_neg h, ih]

theorem length_sortLex (xs : List (List Char)) : (sortLex xs).length = xs.length := by
  induction xs with
  | nil => rfl
  | cons x t ih => simp [sortLex, length_insSorted, ih]

theorem head?_insSorted (x : List Char) (ys : List (List Char)) :
    (insSorted x ys).head? = some x ∨ (insSorted x ys).head? = ys.head? := by
  cases ys with
  | nil => exact Or.inl rfl
  | cons y t =>
    by_cases h : lexLe x y
    · simp [insSorted, if_pos h]
    · simp [insSorted, if_neg h]

theorem chain'_insSorted (x : List Char) (ys : List (List Char))
    (h : List.Chain' (fun a b => lexLe a b = true) ys) :
    List.Chain' (fun a b => lexLe a b = true) (insSorted x ys) := by
  induction ys with
  | nil => simp [insSorted]
  | cons y t ih =>
    by_cases hxy : lexLe x y
    · simp only [insSorted, if_pos hxy]
      exact List.chain'_cons'.mpr ⟨fun z hz => by simp at hz; rw [← hz]; exact hxy, h⟩
    · simp only [insSorted, if_neg hxy]
      have ht := (List.chain'_cons'.mp h).2
      have hhead := (List.chain'_cons'.mp h).1
      refine List.chain'_cons'.mpr ⟨?_, ih ht⟩
      intro z hz
      rcases head?_insSorted x t with he | he
      · rw [he] at hz
        simp at hz
        subst hz
        rcases lexLe_total x y with h1 | h1
        · exact absurd h1 hxy
        · exact h1
      · rw [he] at hz
        exact hhead z hz

theorem chain'_sortLex (xs : List (List Char)) :
    List.Chain' (fun a b => lexLe a b = true) (sortLex xs) := by
  induction xs with
  | nil => simp [sortLex]
  | cons x t ih => exact chain'_insSorted x (sortLex t) ih

theorem sortLex_of_chain' (ys : List (List Char))
    (h : List.Chain' (fun a b => lexLe a b = true) ys) : sortLex ys = ys := by
  induction ys with
  | nil => rfl
  | cons y t ih =>
    have ht := (List.chain'_cons'.mp h).2
    have hhead := (List.chain'_cons'.mp h).1
    show insSorted y (sortLex t) = y :: t
    rw [ih ht]
    cases t with
    | nil => rfl
    | cons z ts =>
      have := hhead z rfl
      simp [insSorted, if_pos this]

theorem sortLex_sortLex (xs : List (List Char)) : sortLex (sortLex xs) = sortLex xs :=
  sortLex_of_chain' (sortLex xs) (chain'_sortLex xs)

theorem prefixOf_mem (p l : List Char) (h : prefixOf p l = true) :
    ∀ c ∈ p, c ∈ l := by
  induction p generalizing l with
  | nil => simp
  | cons a as ih =>
    cases l with
    | nil => simp [prefixOf] at h
    | cons b bs =>
      simp only [prefixOf, Bool.and_eq_true] at h
      rw [decide_eq_true_eq] at h
      intro c hc
      rcases List.mem_cons.mp hc with h1 | h1
      · rw [h1, h.1]
        exact List.mem_cons_self b bs
      · exact List.mem_cons_of_mem b (ih bs h.2 c h1)

theorem isSqrtWrapped_false (l : List Char) (h : '(' ∉ l) :
    isSqrtWrapped l = false := by
  cases hp : prefixOf sqrtOpen l with
  | false => simp [isSqrtWrapped, hp]
  | true =>
    exact absurd (prefixOf_mem sqrtOpen l hp '(' (by decide)) h

theorem replParens_no_paren (rec : List Char → List Char) (fuel : Nat)
    (l : List Char) (h : '(' ∉ l) : replParens rec fuel l = l := by
  induction l generalizing fuel with
  | nil => cases fuel <;> rfl
  | cons c rest ih =>
    cases fuel with
    | zero => rfl
    | succ f =>
      have hc : ¬ c = '(' := fun e => h (by rw [e]; exact List.mem_cons_self _ _)
      simp only [replParens, if_neg hc]
      rw [ih f (fun hm => h (List.mem_cons_of_mem c hm))]

theorem depth0SlashIdx_none (i : Nat) (d : Int) (l : List Char) (h : '/' ∉ l) :
    depth0SlashIdx i d l = none := by
  induction l generalizing i d with
  | nil => rfl
  | cons c rest ih =>
    have hc : ¬ c = '/' := fun e => h (by rw [e]; exact List.mem_cons_self _ _)
    have htail : '/' ∉ rest := fun hm => h (List.mem_cons_of_mem c hm)
    simp only [depth0SlashIdx]
    split_ifs with h1 h2 h3
    · exact ih (i + 1) (d + 1) htail
    · exact ih (i + 1) (d - 1) htail
    · exact absurd h3.1 hc
    · exact ih (i + 1) d htail

theorem depth0SlashIdx_append (i : Nat) (A B : List Char)
    (h1 : '(' ∉ A) (h2 : ')' ∉ A) (h3 : '/' ∉ A) :
    depth0SlashIdx i 0 (A ++ '/' :: B) = some (i + A.length) := by
  induction A generalizing i with
  | nil =>
    show depth0SlashIdx i 0 ('/' :: B) = some (i + 0)
    simp [depth0SlashIdx]
  | cons a A2 ih =>
    have ha1 : ¬ a = '(' := fun e => h1 (by rw [e]; exact List.mem_cons_self _ _)
    have ha2 : ¬ a = ')' := fun e => h2 (by rw [e]; exact List.mem_cons_self _ _)
    have ha3 : ¬ (a = '/' ∧ (0 : Int) = 0) := fun hx =>
      h3 (by rw [hx.1]; exact List.mem_cons_self _ _)
    show depth0SlashIdx i 0 (a :: (A2 ++ '/' :: B)) = some (i + (A2.length + 1))
    simp only [depth0SlashIdx, if_neg ha1, if_neg ha2, if_neg ha3]
    rw [ih (i + 1) (fun hm => h1 (List.mem_cons_of_mem a hm))
      (fun hm => h2 (List.mem_cons_of_mem a hm))
      (fun hm => h3 (List.mem_cons_of_mem a hm))]
    have ha4 : ¬ (a = '/' ∧ True) := fun hx => ha3 ⟨hx.1, rfl⟩
    rw [if_neg ha4]
    exact congrArg some (by omega)

theorem depth0SlashIdx_some_split (l : List Char) (hp1 : '(' ∉ l) (hp2 : ')' ∉ l) :
    ∀ i j, depth0SlashIdx i 0 l = some j →
    ∃ A B, l = A ++ '/' :: B ∧ i + A.length = j ∧ '/' ∉ A := by
  induction l with
  | nil => intro i j h; exact absurd h (by simp [depth0SlashIdx])
  | cons c rest ih =>
    intro i j h
    have hc1 : ¬ c = '(' := fun e => hp1 (by rw [e]; exact List.mem_cons_self _ _)
    have hc2 : ¬ c = ')' := fun e => hp2 (by rw [e]; exact List.mem_cons_self _ _)
    simp only [depth0SlashIdx, if_neg hc1, if_neg hc2] at h
    by_cases hc3 : c = '/'
    · subst hc3
      simp at h
      exact ⟨[], rest, rfl, by simpa using h, by simp⟩
    · have hcond : ¬ (c = '/' ∧ True) := fun hx => hc3 hx.1
      rw [if_neg hcond] at h
      obtain ⟨A2, B, hsp, hlen, hfree⟩ :=
        ih (fun hm => hp1 (List.mem_cons_of_mem c hm))
          (fun hm => hp2 (List.mem_cons_of_mem c hm)) (i + 1) j h
      refine ⟨c :: A2, B, by rw [hsp]; rfl, by simp; omega, ?_⟩
      intro hm
      rcases List.mem_cons.mp hm with hx | hx
      · exact hc3 hx.symm
      · exact hfree hx

theorem depth0SlashIdx_none_not_mem (l : List Char) (hp1 : '(' ∉ l) (hp2 : ')' ∉ l)
    (i : Nat) (h : depth0SlashIdx i 0 l = none) : '/' ∉ l := by
  induction l generalizing i with
  | nil => simp
  | cons c rest ih =>
    have hc1 : ¬ c = '(' := fun e => hp1 (by rw [e]; exact List.mem_cons_self _ _)
    have hc2 : ¬ c = ')' := fun e => hp2 (by rw [e]; exact List.mem_cons_self _ _)
    simp only [depth0SlashIdx, if_neg hc1, if_neg hc2] at h
    by_cases hc3 : c = '/'
    · subst hc3
      simp at h
    · have hcond : ¬ (c = '/' ∧ True) := fun hx => hc3 hx.1
      rw [if_neg hcond] at h
      have := ih (fun hm => hp1 (List.mem_cons_of_mem c hm))
        (fun hm => hp2 (List.mem_cons_of_mem c hm)) (i + 1) h
      intro hm
      rcases List.mem_cons.mp hm with hx | hx
      · exact hc3 hx.symm
      · exact this hx

theorem mem_joinWith_of_mem (c : Char) (parts : List (List Char)) (p : List Char)
    (x : Char) (hp : p ∈ parts) (hx : x ∈ p) : x ∈ joinWith c parts := by
  induction parts with
  | nil => simp at hp
  | cons q t ih =>
    cases t with
    | nil =>
      simp at hp
      subst hp
      exact hx
    | cons r ts =>
      rw [show joinWith c (q :: r :: ts) = q ++ c :: joinWith c (r :: ts) from rfl]
      rcases List.mem_cons.mp hp with h1 | h1
      · exact List.mem_append.mpr (Or.inl (h1 ▸ hx))
      · exact List.mem_append.mpr (Or.inr (List.mem_cons_of_mem c (ih h1)))

theorem splitCh_chunk_mem (c : Char) (l : List Char) (p : List Char) (x : Char)
    (hp : p ∈ splitCh c l) (hx : x ∈ p) : x ∈ l := by
  rw [← joinWith_splitCh c l]
  exact mem_joinWith_of_mem c (splitCh c l) p x hp hx

theorem normSideGo_nil (f : Nat) : normSideGo f [] = [] := by
  cases f with
  | zero => rfl
  | succ f => rfl

theorem normSideGo_succ_strip (f : Nat) (l : List Char) :
    normSideGo (f + 1) l = normSideGo (f + 1) (stripWS l) := by
  simp only [normSideGo]
  rw [stripWS_eq_self (stripWS l) (fun c hc => stripWS_no_ws l c hc)]

theorem normSideGo_step (g : Nat) (m : List Char)
    (hws : ∀ c ∈ m, isJsWS c = false) (hp : '(' ∉ m) :
    normSideGo (g + 1) m =
      (match depth0SlashIdx 0 0 m with
       | some i => normSideGo g (m.take i) ++ '/' :: normSideGo g (m.drop (i + 1))
       | none =>
         if m.contains '*' then joinWith '*' (sortLex (splitCh '*' m)) else m) := by
  simp only [normSideGo]
  rw [stripWS_eq_self m hws]
  rw [replParens_no_paren (normSideGo g) m.length m hp]
  rw [isSqrtWrapped_false m hp]
  rw [if_neg Bool.false_ne_true]

theorem normSideGo_mem (f : Nat) : ∀ (s : List Char), s.length < f → '(' ∉ s → ')' ∉ s →
    ∀ c ∈ normSideGo f s, c ∈ stripWS s := by
  induction f with
  | zero => intro s h; omega
  | succ f ih =>
    intro s hlen hp1 hp2 c hc
    have hp1s : '(' ∉ stripWS s := fun hm => hp1 (mem_stripWS s _ hm)
    have hp2s : ')' ∉ stripWS s := fun hm => hp2 (mem_stripWS s _ hm)
    have hmlen : (stripWS s).length ≤ s.length := List.length_filter_le _ s
    rw [normSideGo_succ_strip] at hc
    rw [normSideGo_step f (stripWS s) (fun x hx => stripWS_no_ws s x hx) hp1s] at hc
    show c ∈ stripWS s
    cases hdiv : depth0SlashIdx 0 0 (stripWS s) with
    | some i =>
      rw [hdiv] at hc
      simp only at hc
      obtain ⟨A, B, hAB, hAlen, hAfree⟩ :=
        depth0SlashIdx_some_split (stripWS s) hp1s hp2s 0 i hdiv
      have hAi : A.length = i := by simpa using hAlen
      have hmsplit : (stripWS s).length = A.length + (B.length + 1) := by
        rw [hAB]; simp
      have htake : (stripWS s).take i = A := by
        rw [hAB, ← hAi, List.take_left]
      have hdrop : (stripWS s).drop (i + 1) = B := by
        rw [hAB, List.append_cons]
        have hl : (A ++ ['/']).length = i + 1 := by simp [hAi]
        rw [← hl, List.drop_left]
      rw [htake, hdrop] at hc
      have hApf1 : '(' ∉ A := fun hm => hp1s (by rw [hAB]; exact List.mem_append.mpr (Or.inl hm))
      have hApf2 : ')' ∉ A := fun hm => hp2s (by rw [hAB]; exact List.mem_append.mpr (Or.inl hm))
      have hBpf1 : '(' ∉ B := fun hm =>
        hp1s (by rw [hAB]; exact List.mem_append.mpr (Or.inr (List.mem_cons_of_mem _ hm)))
      have hBpf2 : ')' ∉ B := fun hm =>
        hp2s (by rw [hAB]; exact List.mem_append.mpr (Or.inr (List.mem_cons_of_mem _ hm)))
      rcases List.mem_append.mp hc with h1 | h1
      · have := ih A (by omega) hApf1 hApf2 c h1
        have hcA := mem_stripWS A c this
        rw [hAB]
        exact List.mem_append.mpr (Or.inl hcA)
      · rcases List.mem_cons.mp h1 with h2 | h2
        · rw [hAB, h2]
          exact List.mem_append.mpr (Or.inr (List.mem_cons_self _ _))
        · have := ih B (by omega) hBpf1 hBpf2 c h2
          have hcB := mem_stripWS B c this
          rw [hAB]
          exact List.mem_append.mpr (Or.inr (List.mem_cons_of_mem _ hcB))
    | none =>
      rw [hdiv] at hc
      simp only at hc
      cases hstar : (stripWS s).contains '*' with
      | true =>
        rw [hstar, if_pos rfl] at hc
        rcases mem_joinWith '*' _ c hc with h1 | ⟨p, hp, hcp⟩
        · rw [h1]
          simpa using hstar
        · exact splitCh_chunk_mem '*' (stripWS s) p c ((mem_sortLex _ p).mp hp) hcp
      | false =>
        rw [hstar, if_neg Bool.false_ne_true] at hc
        exact hc

theorem normSideGo_step_div (g : Nat) (m : List Char)
    (hws : ∀ c ∈ m, isJsWS c = false) (hp : '(' ∉ m) (i : Nat)
    (hdiv : depth0SlashIdx 0 0 m = some i) :
    normSideGo (g + 1) m
      = normSideGo g (m.take i) ++ '/' :: normSideGo g (m.drop (i + 1)) := by
  rw [normSideGo_step g m hws hp, hdiv]

theorem normSideGo_step_mul (g : Nat) (m : List Char)
    (hws : ∀ c ∈ m, isJsWS c = false) (hp : '(' ∉ m)
    (hdiv : depth0SlashIdx 0 0 m = none) (hstar : m.contains '*' = true) :
    normSideGo (g + 1) m = joinWith '*' (sortLex (splitCh '*' m)) := by
  rw [normSideGo_step g m hws hp, hdiv, hstar]
  rfl

theorem normSideGo_step_plain (g : Nat) (m : List Char)
    (hws : ∀ c ∈ m, isJsWS c = false) (hp : '(' ∉ m)
    (hdiv : depth0SlashIdx 0 0 m = none) (hstar : m.contains '*' = false) :
    normSideGo (g + 1) m = m := by
  rw [normSideGo_step g m hws hp, hdiv, hstar]
  exact if_neg Bool.false_ne_true

theorem normSideGo_idem : ∀ (n : Nat) (l : List Char), l.length ≤ n → '(' ∉ l → ')' ∉ l →
    ∀ f g, l.length < f → normSideGo g (normSideGo f l) = normSideGo f l := by
  intro n
  induction n with
  | zero =>
    intro l hlen hp1 hp2 f g hf
    have hnil : l = [] := List.length_eq_zero.mp (by omega)
    subst hnil
    rw [normSideGo_nil f]
    exact normSideGo_nil g
  | succ n ih =>
    intro l hlen hp1 hp2 f g hf
    cases f with
    | zero => omega
    | succ f =>
    cases g with
    | zero => rfl
    | succ g =>
    have hp1m : '(' ∉ stripWS l := fun hm => hp1 (mem_stripWS l _ hm)
    have hp2m : ')' ∉ stripWS l := fun hm => hp2 (mem_stripWS l _ hm)
    have hwsm : ∀ x ∈ stripWS l, isJsWS x = false := fun x hx => stripWS_no_ws l x hx
    have hmlen : (stripWS l).length ≤ l.length := List.length_filter_le _ l
    rw [normSideGo_succ_strip f l]
    cases hdiv : depth0SlashIdx 0 0 (stripWS l) with
    | some i =>
      obtain ⟨A, B, hAB, hAlen, hAfree⟩ :=
        depth0SlashIdx_some_split (stripWS l) hp1m hp2m 0 i hdiv
      have hAi : A.length = i := by simpa using hAlen
      have hmsplit : (stripWS l).length = A.length + (B.length + 1) := by rw [hAB]; simp
      have htake : (stripWS l).take i = A := by rw [hAB, ← hAi, List.take_left]
      have hdrop : (stripWS l).drop (i + 1) = B := by
        rw [hAB, List.append_cons]
        have hx : (A ++ ['/']).length = i + 1 := by simp [hAi]
        rw [← hx, List.drop_left]
      rw [normSideGo_step_div f (stripWS l) hwsm hp1m i hdiv, htake, hdrop]
      have hApf1 : '(' ∉ A := fun hm =>
        hp1m (by rw [hAB]; exact List.mem_append.mpr (Or.inl hm))
      have hApf2 : ')' ∉ A := fun hm =>
        hp2m (by rw [hAB]; exact List.mem_append.mpr (Or.inl hm))
      have hBpf1 : '(' ∉ B := fun hm =>
        hp1m (by rw [hAB]; exact List.mem_append.mpr (Or.inr (List.mem_cons_of_mem _ hm)))
      have hBpf2 : ')' ∉ B := fun hm =>
        hp2m (by rw [hAB]; exact List.mem_append.mpr (Or.inr (List.mem_cons_of_mem _ hm)))
      have hAf : A.length < f := by omega
      have hBf : B.length < f := by omega
      have hAbm : ∀ x ∈ normSideGo f A, x ∈ stripWS A :=
        fun x hx => normSideGo_mem f A hAf hApf1 hApf2 x hx
      have hBbm : ∀ x ∈ normSideGo f B, x ∈ stripWS B :=
        fun x hx => normSideGo_mem f B hBf hBpf1 hBpf2 x hx
      have hAb_ws : ∀ x ∈ normSideGo f A, isJsWS x = false :=
        fun x hx => stripWS_no_ws A x (hAbm x hx)
      have hBb_ws : ∀ x ∈ normSideGo f B, isJsWS x = false :=
        fun x hx => stripWS_no_ws B x (hBbm x hx)
      have hAb_p1 : '(' ∉ normSideGo f A := fun hm => hApf1 (mem_stripWS A _ (hAbm _ hm))
      have hAb_p2 : ')' ∉ normSideGo f A := fun hm => hApf2 (mem_stripWS A _ (hAbm _ hm))
      have hAb_sl : '/' ∉ normSideGo f A := fun hm => hAfree (mem_stripWS A _ (hAbm _ hm))
      have hout_ws : ∀ x ∈ normSideGo f A ++ '/' :: normSideGo f B, isJsWS x = false := by
        intro x hx
        rcases List.mem_append.mp hx with h1 | h1
        · exact hAb_ws x h1
        · rcases List.mem_cons.mp h1 with h2 | h2
          · rw [h2]; decide
          · exact hBb_ws x h2
      have hout_p1 : '(' ∉ normSideGo f A ++ '/' :: normSideGo f B := by
        intro hm
        rcases List.mem_append.mp hm with h1 | h1
        · exact hAb_p1 h1
        · rcases List.mem_cons.mp h1 with h2 | h2
          · exact absurd h2 (by decide)
          · exact hBpf1 (mem_stripWS B _ (hBbm _ h2))
      have hdiv2 : depth0SlashIdx 0 0 (normSideGo f A ++ '/' :: normSideGo f B)
          = some (normSideGo f A).length := by
        rw [depth0SlashIdx_append 0 _ _ hAb_p1 hAb_p2 hAb_sl]
        simp
      rw [normSideGo_step_div g _ hout_ws hout_p1 _ hdiv2]
      have htake2 : (normSideGo f A ++ '/' :: normSideGo f B).take (normSideGo f A).length
          = normSideGo f A := List.take_left _ _
      have hdrop2 : (normSideGo f A ++ '/' :: normSideGo f B).drop
          ((normSideGo f A).length + 1) = normSideGo f B := by
        rw [List.append_cons]
        have hx2 : (normSideGo f A ++ ['/']).length = (normSideGo f A).length + 1 := by simp
        rw [← hx2, List.drop_left]
      have hidemA : normSideGo g (normSideGo f A) = normSideGo f A :=
        ih A (by omega) hApf1 hApf2 f g hAf
      have hidemB : normSideGo g (normSideGo f B) = normSideGo f B :=
        ih B (by omega) hBpf1 hBpf2 f g hBf
      rw [htake2, hdrop2, hidemA, hidemB]
    | none =>
      have hslash : '/' ∉ stripWS l := depth0SlashIdx_none_not_mem _ hp1m hp2m 0 hdiv
      cases hstar : (stripWS l).contains '*' with
      | false =>
        rw [normSideGo_step_plain f (stripWS l) hwsm hp1m hdiv hstar]
        exact normSideGo_step_plain g (stripWS l) hwsm hp1m hdiv hstar
      | true =>
        rw [normSideGo_step_mul f (stripWS l) hwsm hp1m hdiv hstar]
        have hchunkfree : ∀ p ∈ splitCh '*' (stripWS l), '*' ∉ p :=
          splitCh_chunk_free '*' _
        have hsortfree : ∀ p ∈ sortLex (splitCh '*' (stripWS l)), '*' ∉ p :=
          fun p hp => hchunkfree p ((mem_sortLex _ p).mp hp)
        have hstar_mem : '*' ∈ stripWS l := by simpa using hstar
        have hplen : (splitCh '*' (stripWS l)).length = countCh '*' (stripWS l) + 1 :=
          splitCh_length _ _
        have hcount : 0 < countCh '*' (stripWS l) := countCh_pos _ _ hstar_mem
        have hslen : 2 ≤ (sortLex (splitCh '*' (stripWS l))).length := by
          rw [length_sortLex, hplen]
          omega
        obtain ⟨p0, q0, ts, hsp⟩ : ∃ p0 q0 ts,
            sortLex (splitCh '*' (stripWS l)) = p0 :: q0 :: ts := by
          cases hx : sortLex (splitCh '*' (stripWS l)) with
          | nil => rw [hx] at hslen; simp at hslen
          | cons p0 t =>
            cases t with
            | nil => rw [hx] at hslen; simp at hslen
            | cons q0 ts => exact ⟨p0, q0, ts, rfl⟩
        have hsortne : sortLex (splitCh '*' (stripWS l)) ≠ [] := by
          rw [hsp]
          simp
        have houtmem : ∀ x ∈ joinWith '*' (sortLex (splitCh '*' (stripWS l))),
            x ∈ stripWS l := by
          intro x hx
          rcases mem_joinWith '*' _ x hx with h1 | ⟨p, hp, hxp⟩
          · rw [h1]; exact hstar_mem
          · exact splitCh_chunk_mem '*' (stripWS l) p x ((mem_sortLex _ p).mp hp) hxp
        have hout_ws : ∀ x ∈ joinWith '*' (sortLex (splitCh '*' (stripWS l))),
            isJsWS x = false := fun x hx => hwsm x (houtmem x hx)
        have hout_p1 : '(' ∉ joinWith '*' (sortLex (splitCh '*' (stripWS l))) :=
          fun hm => hp1m (houtmem _ hm)
        have hout_slash : '/' ∉ joinWith '*' (sortLex (splitCh '*' (stripWS l))) :=
          fun hm => hslash (houtmem _ hm)
        have hout_star : (joinWith '*' (sortLex (splitCh '*' (stripWS l)))).contains '*'
            = true := by
          have : '*' ∈ joinWith '*' (sortLex (splitCh '*' (stripWS l))) := by
            rw [hsp]
            exact joinWith_mem_sep '*' p0 q0 ts
          simpa using this
        rw [normSideGo_step_mul g _ hout_ws hout_p1
          (depth0SlashIdx_none 0 0 _ hout_slash) hout_star]
        rw [splitCh_joinWith '*' _ hsortne hsortfree, sortLex_sortLex]

theorem countCh_not_mem (c : Char) (l : List Char) (h : countCh c l = 0) : c ∉ l :=
  fun hm => by have := countCh_pos c l hm; omega

theorem countCh_stripWS (c : Char) (l : List Char) (hc : isJsWS c = false) :
    countCh c (stripWS l) = countCh c l := by
  unfold countCh stripWS
  rw [List.filter_filter]
  congr 1
  apply List.filter_congr
  intro x _
  by_cases hx : x = c
  · subst hx
    simp [hc]
  · simp [hx]

theorem normalizeFormula_fallback (s : String) (h : countCh '=' s.data ≠ 1) :
    normalizeFormula s = ⟨stripWS s.data⟩ := by
  have hlen := splitCh_length '=' s.data
  cases hsp : splitCh '=' s.data with
  | nil => simp [normalizeFormula, hsp]
  | cons a t =>
    cases t with
    | nil => simp [normalizeFormula, hsp]
    | cons b t2 =>
      cases t2 with
      | nil =>
        exfalso
        rw [hsp] at hlen
        simp at hlen
        omega
      | cons c t3 => simp [normalizeFormula, hsp]

theorem normalizeFormula_data (s : String) (a b : List Char)
    (hsp : splitCh '=' s.data = [a, b]) :
    normalizeFormula s
      = ⟨trimChars a ++ '=' :: normSideGo ((trimChars b).length + 1) (trimChars b)⟩ := by
  simp only [normalizeFormula, hsp]
  apply String.ext
  simp only [String.data_append]
  rw [List.append_assoc]
  rfl

theorem normalizeFormula_fallback_idem (s : String) (h : countCh '=' s.data ≠ 1) :
    normalizeFormula (normalizeFormula s) = normalizeFormula s := by
  rw [normalizeFormula_fallback s h]
  have hcount : countCh '=' ((⟨stripWS s.data⟩ : String).data) ≠ 1 := by
    show countCh '=' (stripWS s.data) ≠ 1
    rw [countCh_stripWS '=' s.data (by decide)]
    exact h
  rw [normalizeFormula_fallback _ hcount]
  show (⟨stripWS (stripWS s.data)⟩ : String) = ⟨stripWS s.data⟩
  rw [stripWS_eq_self (stripWS s.data) (fun c hc => stripWS_no_ws s.data c hc)]

theorem normalizeFormula_idem_of_paren_free (s : String)
    (h1 : '(' ∉ s.data) (h2 : ')' ∉ s.data) :
    normalizeFormula (normalizeFormula s) = normalizeFormula s := by
  have hlen := splitCh_length '=' s.data
  cases hsp : splitCh '=' s.data with
  | nil => exact absurd hsp (splitCh_ne_nil '=' s.data)
  | cons a t =>
    cases t with
    | nil =>
      apply normalizeFormula_fallback_idem
      rw [hsp] at hlen
      simp at hlen
      omega
    | cons b t2 =>
      cases t2 with
      | cons c t3 =>
        apply normalizeFormula_fallback_idem
        rw [hsp] at hlen
        simp at hlen
        omega
      | nil =>
        have hjoin : joinWith '=' [a, b] = s.data := by
          rw [← hsp]
          exact joinWith_splitCh '=' s.data
        have hs_ab : s.data = a ++ '=' :: b := by
          rw [← hjoin]
          rfl
        have haeq : '=' ∉ a :=
          splitCh_chunk_free '=' s.data a (by rw [hsp]; exact List.mem_cons_self _ _)
        have hbeq : '=' ∉ b :=
          splitCh_chunk_free '=' s.data b
            (by rw [hsp]; exact List.mem_cons_of_mem _ (List.mem_cons_self _ _))
        have hbp1 : '(' ∉ b := fun hm =>
          h1 (by rw [hs_ab]; exact List.mem_append.mpr (Or.inr (List.mem_cons_of_mem _ hm)))
        have hbp2 : ')' ∉ b := fun hm =>
          h2 (by rw [hs_ab]; exact List.mem_append.mpr (Or.inr (List.mem_cons_of_mem _ hm)))
        have htbp1 : '(' ∉ trimChars b := fun hm => hbp1 (mem_trimChars b _ hm)
        have htbp2 : ')' ∉ trimChars b := fun hm => hbp2 (mem_trimChars b _ hm)
        have htbeq : '=' ∉ trimChars b := fun hm => hbeq (mem_trimChars b _ hm)
        have hrbm : ∀ x ∈ normSideGo ((trimChars b).length + 1) (trimChars b),
            x ∈ stripWS (trimChars b) :=
          fun x hx => normSideGo_mem _ (trimChars b) (by omega) htbp1 htbp2 x hx
        have hrb_ws : ∀ x ∈ normSideGo ((trimChars b).length + 1) (trimChars b),
            isJsWS x = false := fun x hx => stripWS_no_ws _ x (hrbm x hx)
        have hrb_eq : '=' ∉ normSideGo ((trimChars b).length + 1) (trimChars b) :=
          fun hm => htbeq (mem_stripWS _ _ (hrbm _ hm))
        have htaeq : '=' ∉ trimChars a := fun hm =>
          (splitCh_chunk_free '=' s.data a (by rw [hsp]; exact List.mem_cons_self _ _))
            (mem_trimChars a _ hm)
        rw [normalizeFormula_data s a b hsp]
        have hsp2 : splitCh '='
            ((⟨trimChars a ++ '=' ::
              normSideGo ((trimChars b).length + 1) (trimChars b)⟩ : String).data)
            = [trimChars a, normSideGo ((trimChars b).length + 1) (trimChars b)] := by
          show splitCh '=' (trimChars a ++ '=' ::
            normSideGo ((trimChars b).length + 1) (trimChars b)) = _
          rw [splitCh_append '=' _ _ htaeq]
          rw [splitCh_of_not_mem '=' _ hrb_eq]
        rw [normalizeFormula_data _ _ _ hsp2]
        have htrb : trimChars (normSideGo ((trimChars b).length + 1) (trimChars b))
            = normSideGo ((trimChars b).length + 1) (trimChars b) :=
          trimChars_all_not _ hrb_ws
        rw [trimChars_trimChars, htrb]
        have hidem := normSideGo_idem (trimChars b).length (trimChars b) (le_refl _)
          htbp1 htbp2 ((trimChars b).length + 1)
          ((normSideGo ((trimChars b).length + 1) (trimChars b)).length + 1)
          (by omega)
        rw [hidem]

/-! ## Claim theorems -/

/-- C1: the equivalence checker computes `normalizeFormula` of both the
reference answer and the user formula and judges the user correct
exactly when the two normalized strings are identical; in particular it
is whitespace-insensitive, accepting `"c = sqrt(E/m )"` against the
answer `"c = sqrt(E / m)"` and `"a = F/m"` against `"a = F / m"`. -/
theorem checkAnswer_is_normalized_equality :
    (∀ (p : Problem) (u : String),
      checkAnswer p u = true ↔ normalizeFormula u = normalizeFormula p.correctAnswer)
    ∧ checkAnswer { originalFormula := "E = m * c^2", targetVariable := "c",
                    correctAnswer := "c = sqrt(E / m)", symbols := [] } "c = sqrt(E/m )" = true
    ∧ checkAnswer { originalFormula := "F = m * a", targetVariable := "a",
                    correctAnswer := "a = F / m", symbols := [] } "a = F/m" = true := by
  refine ⟨fun p u => ?_, by decide, by decide⟩
  simp [checkAnswer]

/-- C2 counterexample: `normalizeFormula` is not idempotent on all valid
formula text.  The right-hand side `"( b * a ) * ( d * c )"` is the
serializer output of a side built from legal symbol tokens (parentheses
and `*` are in the drag-and-drop vocabulary), so
`"x = ( b * a ) * ( d * c )"` is valid formula text; its first
normalization sorts the `*`-split fragments across the two parenthesis
groups, producing `"x=(a*(c*b)*d)"`, and a second normalization re-sorts
the re-formed inner group to `"x=(a*(b*c)*d)"`. -/
theorem normalizeFormula_not_idempotent :
    serializeSide (Side.mk [Item.symbol "i1" "(", Item.symbol "i2" "b",
        Item.symbol "i3" "*", Item.symbol "i4" "a", Item.symbol "i5" ")",
        Item.symbol "i6" "*", Item.symbol "i7" "(", Item.symbol "i8" "d",
        Item.symbol "i9" "*", Item.symbol "i10" "c", Item.symbol "i11" ")"])
      = "( b * a ) * ( d * c )"
    ∧ normalizeFormula (normalizeFormula "x = ( b * a ) * ( d * c )")
      ≠ normalizeFormula "x = ( b * a ) * ( d * c )"
    ∧ normalizeFormula "x = ( b * a ) * ( d * c )" = "x=(a*(c*b)*d)"
    ∧ normalizeFormula "x=(a*(c*b)*d)" = "x=(a*(b*c)*d)" := by decide

/-- C2 amended: `normalizeFormula` is idempotent on every formula that
contains no parentheses (whatever its number of `=` signs), and on every
formula of the problem bank (all predefined formulas, all precomputed
answers and the fallback problem); it is not idempotent on arbitrary
valid formula text, where the `*`-split sorting can tear parenthesis
groups apart. -/
theorem normalizeFormula_idempotent_cases :
    (∀ s : String, '(' ∉ s.data → ')' ∉ s.data →
      normalizeFormula (normalizeFormula s) = normalizeFormula s)
    ∧ (∀ f ∈ bankFormulas, normalizeFormula (normalizeFormula f) = normalizeFormula f) := by
  refine ⟨fun s h1 h2 => normalizeFormula_idem_of_paren_free s h1 h2, ?_⟩
  decide

/-- C2 witness: the amended idempotence applied to the parenthesis-free
formula `"v = u + a * t"`. -/
theorem normalizeFormula_idempotent_cases_witness :
    normalizeFormula (normalizeFormula "v = u + a * t") = normalizeFormula "v = u + a * t" :=
  normalizeFormula_idempotent_cases.1 "v = u + a * t" (by decide) (by decide)

/-- C3: `normalizeSide` sorts the factors of a top-level product
lexicographically, so `g*h*m`, `m*g*h` and `h*m*g` all normalize to the
same string (namely `g*h*m`). -/
theorem normalizeSide_commutative_product :
    normalizeSide "g*h*m" = normalizeSide "m*g*h"
    ∧ normalizeSide "m*g*h" = normalizeSide "h*m*g"
    ∧ normalizeSide "g*h*m" = "g*h*m" := by decide

/-- C4: moving an item within the same container removes it first and
then inserts at the destination index computed against the container
after removal: in a 3-item container `[A, B, C]`, moving index 0 to
destination index 2 yields `[B, C, A]`. -/
theorem move_same_container_removal_first (A B C : Item) :
    handleDropReorder (Side.mk [A, B, C])
      [Key.field "items", Key.idx 0] [Key.field "items"] 2
    = Side.mk [B, C, A] := rfl

/-- C8: the equivalence checker does not recognize additive
commutativity: `"y = b + a"` is judged incorrect against the answer
`"y = a + b"`, because `a+b` and `b+a` normalize to different strings. -/
theorem additive_commutativity_not_recognized :
    checkAnswer { originalFormula := "", targetVariable := "y",
                  correctAnswer := "y = a + b", symbols := [] } "y = b + a" = false
    ∧ normalizeSide "a+b" ≠ normalizeSide "b+a" := by decide

/-- C9: on input without exactly one `=` (zero or several), the split
does not produce two parts, and `normalizeFormula` returns the input
with all whitespace removed, performing no other normalization (the
embedding is total, so it never throws). -/
theorem normalizeFormula_malformed_passthrough (s : String)
    (h : countCh '=' s.data ≠ 1) : normalizeFormula s = ⟨stripWS s.data⟩ :=
  normalizeFormula_fallback s h

/-- C9 witness: the fallback on a formula with no `=` at all. -/
theorem normalizeFormula_malformed_passthrough_witness :
    countCh '=' ("F  m a").data ≠ 1 ∧ normalizeFormula "F  m a" = "Fma" :=
  ⟨by decide, normalizeFormula_malformed_passthrough "F  m a" (by decide)⟩

/-- C5 counterexample: a move whose destination path does not resolve to
an item-array is not rejected as a whole.  With the one-item tree
`[symbol "x"]`, source path `["items", 0]` and destination path
`["items", 0, "content", "items"]` (which resolves to the symbol
content *string*, not an array, both before and after removal), the
removal is applied and the insertion is not: the item vanishes and the
returned tree differs from the prior tree. -/
theorem move_not_atomic_on_dest_failure :
    isArr (getNested (Side.mk [Item.symbol "id1" "x"])
      [Key.field "items", Key.idx 0, Key.field "content", Key.field "items"]) = false
    ∧ handleDropReorder (Side.mk [Item.symbol "id1" "x"])
        [Key.field "items", Key.idx 0]
        [Key.field "items", Key.idx 0, Key.field "content", Key.field "items"] 0
      ≠ Side.mk [Item.symbol "id1" "x"] :=
  ⟨rfl, fun h => List.noConfusion (congrArg Side.items h)⟩

/-- C5 amended: the mutation is atomic on source-side failures only.
If the source container path does not resolve to an item-array, or it
does but the terminal source index removes no item, the returned tree is
the prior tree unchanged; but if the removal succeeds and the
destination path then fails to resolve to an item-array, the returned
tree is the tree with the item removed and not inserted (the mutation
is applied in part). -/
theorem move_atomic_on_source_failure :
    (∀ (root : Side) (sp tp : List Key) (n : Nat),
      isArr (getNested root sp.dropLast) = false →
      handleDropReorder root sp tp n = root)
    ∧ (∀ (root : Side) (sp tp : List Key) (n : Nat) (src : List Item),
      getNested root sp.dropLast = JV.varr src →
      src.get? (lastIdx sp) = none →
      handleDropReorder root sp tp n = root)
    ∧ (∀ (root : Side) (sp tp : List Key) (n : Nat) (src : List Item) (it : Item),
      getNested root sp.dropLast = JV.varr src →
      src.get? (lastIdx sp) = some it →
      isArr (getNested (modifySide root sp.dropLast
        (fun l => l.eraseIdx (lastIdx sp))) tp) = false →
      handleDropReorder root sp tp n
        = modifySide root sp.dropLast (fun l => l.eraseIdx (lastIdx sp))) := by
  refine ⟨?_, ?_, ?_⟩
  · intro root sp tp n h
    unfold handleDropReorder
    split
    · rename_i src heq
      rw [heq] at h
      simp [isArr] at h
    · rfl
  · intro root sp tp n src h1 h2
    simp only [handleDropReorder, h1, h2]
  · intro root sp tp n src it h1 h2 h3
    simp only [handleDropReorder, h1, h2]
    split
    · rename_i heq
      rw [heq] at h3
      simp [isArr] at h3
    · rfl

/-- C5 witness: source-side atomicity at a concrete input (an empty
source path resolves to the side object itself, never an array). -/
theorem move_atomic_on_source_failure_witness :
    handleDropReorder (Side.mk []) [Key.idx 5] [] 0 = Side.mk [] :=
  move_atomic_on_source_failure.1 (Side.mk []) [Key.idx 5] [] 0 rfl

theorem specAllOK_iff (l : List Item) :
    specAllOK l = true ↔ ∀ it ∈ l, specItemOK it = true := by
  induction l with
  | nil => simp [specAllOK]
  | cons it rest ih => simp [specAllOK, Bool.and_eq_true, ih]

mutual
theorem isSideSubmittable_eq_spec : (s : Side) → isSideSubmittable s = specComplete s
  | Side.mk items => by
    show (if items.isEmpty then false else checkItems items)
      = (!items.isEmpty && specAllOK items)
    cases h : items.isEmpty with
    | true => simp [h]
    | false => simp [h, checkItems_eq_spec items]

theorem checkItems_eq_spec : (l : List Item) → checkItems l = specAllOK l
  | [] => rfl
  | it :: rest => by
    cases it with
    | symbol id content =>
      show (true && checkItems rest) = (true && specAllOK rest)
      rw [checkItems_eq_spec rest]
    | sqrt id c =>
      show ((!c.items.isEmpty && isSideSubmittable c) && checkItems rest)
        = ((!c.items.isEmpty && specComplete c) && specAllOK rest)
      rw [isSideSubmittable_eq_spec c, checkItems_eq_spec rest]
    | fraction id n d =>
      show ((!(n.items.isEmpty || d.items.isEmpty)
            && isSideSubmittable n && isSideSubmittable d) && checkItems rest)
        = (((!n.items.isEmpty && specComplete n) && (!d.items.isEmpty && specComplete d))
          && specAllOK rest)
      rw [isSideSubmittable_eq_spec n, isSideSubmittable_eq_spec d, checkItems_eq_spec rest]
      cases n.items.isEmpty <;> cases d.items.isEmpty <;>
        cases specComplete n <;> cases specComplete d <;> simp
end

/-- C6: the completeness checker returns false on every empty container;
on a non-empty container it returns true iff every item satisfies the
per-item spec condition (complete radicand for `Sqrt`, complete
numerator and denominator for `Fraction`, nothing for symbols); and a
`Fraction` with an empty denominator forces false on its containing
side, regardless of the other items. -/
theorem isSideSubmittable_characterization :
    (∀ s : Side, s.items = [] → isSideSubmittable s = false)
    ∧ (∀ s : Side, s.items ≠ [] →
        (isSideSubmittable s = true ↔ ∀ it ∈ s.items, specItemOK it = true))
    ∧ (∀ (s : Side) (id : String) (n d : Side),
        Item.fraction id n d ∈ s.items → d.items = [] →
        isSideSubmittable s = false) := by
  refine ⟨?_, ?_, ?_⟩
  · intro s h
    cases s with
    | mk items =>
      simp only [Side.items] at h
      subst h
      rfl
  · intro s h
    cases s with
    | mk items =>
      simp only [Side.items] at h ⊢
      rw [isSideSubmittable_eq_spec]
      show (!items.isEmpty && specAllOK items) = true ↔ _
      have hne : items.isEmpty = false := by
        cases items with
        | nil => exact absurd rfl h
        | cons a t => rfl
      rw [hne]
      simp [specAllOK_iff]
  · intro s id n d hmem hd
    cases s with
    | mk items =>
      simp only [Side.items] at hmem
      rw [isSideSubmittable_eq_spec]
      show (!items.isEmpty && specAllOK items) = false
      have hfail : specItemOK (Item.fraction id n d) = false := by
        show ((!n.items.isEmpty && specComplete n)
          && (!d.items.isEmpty && specComplete d)) = false
        rw [hd]
        simp
      cases hall : specAllOK items with
      | false => simp [hall]
      | true =>
        exfalso
        have hok := (specAllOK_iff items).mp hall _ hmem
        rw [hfail] at hok
        exact Bool.noConfusion hok

/-- C6 witness: a side holding a symbol and a fraction with an empty
denominator is not submittable. -/
theorem isSideSubmittable_characterization_witness :
    isSideSubmittable (Side.mk [Item.symbol "s1" "Fz",
      Item.fraction "f1" (Side.mk [Item.symbol "s2" "m"]) (Side.mk [])]) = false :=
  isSideSubmittable_characterization.2.2
    (Side.mk [Item.symbol "s1" "Fz",
      Item.fraction "f1" (Side.mk [Item.symbol "s2" "m"]) (Side.mk [])])
    "f1" (Side.mk [Item.symbol "s2" "m"]) (Side.mk [])
    (List.mem_cons_of_mem _ (List.mem_cons_self _ _)) rfl

/-- C7 counterexample: a numerator with exactly one item (a symbol whose
content is the empty string) is not emitted unwrapped: the `|| ' '`
fallback replaces its empty serialization with the space placeholder, so
the fraction serializes to `"  / g"` and not to the claimed
`<num> / <den>` with the one-item side unwrapped (`" / g"`). -/
theorem fraction_single_empty_item_not_unwrapped :
    (Side.mk [Item.symbol "i" ""]).items.length = 1
    ∧ serializeItem (Item.fraction "f" (Side.mk [Item.symbol "i" ""])
        (Side.mk [Item.symbol "j" "g"]))
      ≠ serializeSide (Side.mk [Item.symbol "i" ""]) ++ " / "
        ++ serializeSide (Side.mk [Item.symbol "j" "g"]) := by decide

/-- C7 amended: a fraction serializes to `<num> / <den>` where each side
is wrapped in parentheses iff its own item count exceeds 1, and an
unwrapped side whose serialization is empty (in particular every empty
side) is emitted as the single-space placeholder, so the division always
has two operands. -/
theorem serializeItem_fraction_shape :
    (∀ (id : String) (n d : Side),
      serializeItem (Item.fraction id n d) = fracSideEmit n ++ " / " ++ fracSideEmit d)
    ∧ (∀ s : Side, s.items = [] → fracSideEmit s = " ")
    ∧ (∀ s : Side, s.items.length > 1 →
        fracSideEmit s = "( " ++ serializeSide s ++ " )") := by
  refine ⟨fun id n d => rfl, ?_, ?_⟩
  · intro s h
    cases s with
    | mk items =>
      simp only [Side.items] at h
      subst h
      rfl
  · intro s h
    simp [fracSideEmit, h]

/-- C7 witness: the amended shape applied to an empty side. -/
theorem serializeItem_fraction_shape_witness :
    fracSideEmit (Side.mk []) = " " :=
  serializeItem_fraction_shape.2.1 (Side.mk []) rfl

theorem targetsLen_lt (i : Nat) (h : i < 11) : targetsLenOf i < 4 := by
  revert h
  revert i
  decide

theorem fallbackProblem_ok :
    fallbackProblem.targetVariable ≠ solvedVarOf fallbackProblem.originalFormula
    ∧ fallbackProblem.correctAnswer ≠ ""
    ∧ solvedVarOf fallbackProblem.correctAnswer = fallbackProblem.targetVariable := by
  decide

theorem getPhysicsProblem_bounded (i : Nat) (hi : i < 11) (j : Nat) (hj : j < 4) :
    (getPhysicsProblem i j).targetVariable
      ≠ solvedVarOf (getPhysicsProblem i j).originalFormula
    ∧ (getPhysicsProblem i j).correctAnswer ≠ ""
    ∧ solvedVarOf (getPhysicsProblem i j).correctAnswer
      = (getPhysicsProblem i j).targetVariable := by
  revert hj
  revert j
  revert hi
  revert i
  decide

/-- C10: every problem the generator can return -- for every random
draw of formula and target and for the fallback problem -- has a target
variable different from the left-hand-side variable of the original
formula, and a non-empty correct answer whose text before its `=` trims
exactly to the target variable. -/
theorem getPhysicsProblem_target_invariant (i j : Nat) :
    (getPhysicsProblem i j).targetVariable
      ≠ solvedVarOf (getPhysicsProblem i j).originalFormula
    ∧ (getPhysicsProblem i j).correctAnswer ≠ ""
    ∧ solvedVarOf (getPhysicsProblem i j).correctAnswer
      = (getPhysicsProblem i j).targetVariable := by
  rcases Nat.lt_or_ge i 11 with hi | hi
  · rcases Nat.lt_or_ge j 4 with hj | hj
    · exact getPhysicsProblem_bounded i hi j hj
    · have hfb : getPhysicsProblem i j = fallbackProblem := by
        have hlen := targetsLen_lt i hi
        cases hfd : PREDEFINED_FORMULAS.get? i with
        | none => simp only [getPhysicsProblem, hfd]
        | some fd =>
          have h2 : targetsLenOf i = (targetsOf fd).length := by
            simp only [targetsLenOf, hfd]
          have hnone : (targetsOf fd).get? j = none := by
            apply List.get?_eq_none.mpr
            omega
          simp only [getPhysicsProblem, hfd, hnone]
      rw [hfb]
      exact fallbackProblem_ok
  · have hnone : PREDEFINED_FORMULAS.get? i = none := by
      apply List.get?_eq_none.mpr
      have hlen : PREDEFINED_FORMULAS.length = 11 := rfl
      omega
    have hfb : getPhysicsProblem i j = fallbackProblem := by
      simp only [getPhysicsProblem, hnone]
    rw [hfb]
    exact fallbackProblem_ok


end FormulesOmvormen
